import Mathlib

/-!
Shallow embedding of the `tdo-core` task engine
(src/tdo-core/src/{mutations.rs, task.rs, main.rs}).

Rows of the SQLite tables are modelled as Lean structures; a table is a
list of rows (in insertion order, matching SQLite rowid order for the
queries used here).  JSON-encoded columns (`x_properties`, `categories`,
`attachments`) are modelled structurally (assoc list / string list): the
(de)serialization is I/O glue.  The ambient effects (current timestamp,
fresh uuid, chrono date parsing) are passed explicitly in an `Ext`
record.  `f64` timestamps are modelled as `Int`: no claim performs
floating-point arithmetic on them, they are opaque markers.
-/

namespace Tdo

/-- A row of the `tasks` table (column set as used by the INSERT in
`add_task`, mutations.rs lines 112-137). -/
structure TaskRow where
  uid : String
  summary : String
  status : String
  due : Option String
  wait : Option String
  due_utc : Option Int
  wait_utc : Option Int
  priority : Option Int
  x_properties : List (String × String)
  categories : List String
  url : Option String
  attachments : List String
  href : Option String
  pending_action : Option String
  last_synced : Option Int
  updated_at : Int
  task_index : Int
deriving Repr, DecidableEq

/-- A row of the `completed_tasks` table: the `tasks` columns plus
`completed_at` (mutations.rs lines 329-340). -/
structure CompletedRow where
  uid : String
  summary : String
  status : String
  due : Option String
  wait : Option String
  due_utc : Option Int
  wait_utc : Option Int
  priority : Option Int
  x_properties : List (String × String)
  categories : List String
  url : Option String
  attachments : List String
  href : Option String
  pending_action : Option String
  last_synced : Option Int
  updated_at : Int
  completed_at : Int
  task_index : Int
deriving Repr, DecidableEq

/-- A row of the `deleted_tasks` table: note the INSERT in
`delete_single_task` (mutations.rs lines 409-420) copies neither
`pending_action` nor `updated_at`, and adds `deleted_at`. -/
structure DeletedRow where
  uid : String
  summary : String
  status : String
  due : Option String
  wait : Option String
  due_utc : Option Int
  wait_utc : Option Int
  priority : Option Int
  x_properties : List (String × String)
  categories : List String
  url : Option String
  attachments : List String
  href : Option String
  last_synced : Option Int
  deleted_at : Int
  task_index : Int
deriving Repr, DecidableEq

/-- The transaction-log table.  Modelled from the spec: the bodies of
`mutations::log_transaction` / `mutations::pop_transaction` are not under
src/ (only their caller `handle_json_command` in main.rs is); §4.3 of the
spec describes an entry as an operation name plus an opaque payload. -/
structure LogEntry where
  operation : String
  diff_json : String
deriving Repr, DecidableEq

/-- The per-environment store: three task record sets plus the log. -/
structure DbState where
  tasks : List TaskRow
  completed : List CompletedRow
  deleted : List DeletedRow
  log : List LogEntry
deriving Repr, DecidableEq

def DbState.empty : DbState := ⟨[], [], [], []⟩

/-- The API task value (task.rs, `struct Task`). -/
structure Task where
  uid : String
  index : Int
  summary : String
  status : String
  due : Option String
  wait : Option String
  priority : Option Int
  tags : List String
  project : Option String
  url : Option String
  attachments : List String
deriving Repr, DecidableEq

/-- `Task::from_row` (task.rs lines 27-56): tags come from the
`categories` JSON array, `project` from the `X-PROJECT` key of the
`x_properties` JSON object. -/
def Task.from_row (r : TaskRow) : Task :=
  { uid := r.uid
    index := r.task_index
    summary := r.summary
    status := r.status
    due := r.due
    wait := r.wait
    priority := r.priority
    tags := r.categories
    project := (r.x_properties.lookup "X-PROJECT")
    url := r.url
    attachments := r.attachments }

/-- `MutationResult` (mutations.rs lines 8-19). -/
structure MutationResult where
  success : Bool
  task : Option Task
  tasks : Option (List Task)
  error : Option String
  index : Option Int
deriving Repr, DecidableEq

/-- `TaskInput` (mutations.rs lines 21-38). -/
structure TaskInput where
  summary : String
  status : Option String := none
  due : Option String := none
  wait : Option String := none
  priority : Option Int := none
  project : Option String := none
  tags : Option (List String) := none
  url : Option String := none
deriving Repr, DecidableEq

/-- `TaskChanges` (mutations.rs lines 40-60). -/
structure TaskChanges where
  summary : Option String := none
  status : Option String := none
  due : Option String := none
  wait : Option String := none
  priority : Option Int := none
  project : Option String := none
  add_tags : Option (List String) := none
  remove_tags : Option (List String) := none
  url : Option String := none
deriving Repr, DecidableEq

/-- Ambient effects, passed explicitly: `now_timestamp()`,
`Uuid::new_v4()`, and `parse_datetime_to_timestamp` (whose chrono-based
body is external parsing glue; no claim depends on its values). -/
structure Ext where
  now : Int
  freshUid : String
  parse : String → Option Int

def ext0 : Ext := ⟨0, "uid-0", fun _ => none⟩

/-! ## Index allocator (`next_available_index`, mutations.rs 69-93) -/

/-- The `for idx in &indices` loop of `next_available_index`
(mutations.rs lines 83-89): returns `some expected` at the first hole,
`none` if the loop finishes without an early return. -/
def scanHole : Int → List Int → Option Int
  | _, [] => none
  | expected, idx :: rest =>
    if idx > expected then some expected else scanHole (idx + 1) rest

/-- `next_available_index` (mutations.rs lines 69-93) on the ascending
list of `task_index` values produced by the `ORDER BY task_index` query. -/
def next_available_index (indices : List Int) : Int :=
  if indices.isEmpty then 1
  else
    match scanHole 1 indices with
    | some e => e
    | none => indices.getLast! + 1

/-- The `SELECT task_index FROM tasks ... ORDER BY task_index` result:
the multiset of active indices in ascending order. -/
def activeIndices (s : DbState) : List Int :=
  (s.tasks.map (·.task_index)).insertionSort (· ≤ ·)

/-! ## Create (`add_task`, mutations.rs 95-148) -/

/-- `SELECT ... FROM tasks WHERE uid = ?` via `query_row` (first match),
mapped through `Task::from_row` (mutations.rs 427-440). -/
def get_task_by_uid (s : DbState) (uid : String) : Option Task :=
  (s.tasks.find? (fun t => t.uid == uid)).map Task.from_row

/-- The row INSERTed by `add_task` (mutations.rs lines 112-137):
defaulted status, project under the reserved `X-PROJECT` key, normalized
tags, derived due/wait timestamps, `pending_action = create`. -/
def newTaskRow (ext : Ext) (s : DbState) (input : TaskInput) : TaskRow :=
  { uid := ext.freshUid
    summary := input.summary
    status := input.status.getD "NEEDS-ACTION"
    due := input.due
    wait := input.wait
    due_utc := input.due.bind ext.parse
    wait_utc := input.wait.bind ext.parse
    priority := input.priority
    x_properties :=
      match input.project with
      | some project => [("X-PROJECT", project)]
      | none => []
    categories := input.tags.getD []
    url := input.url
    attachments := []
    href := none
    pending_action := some "create"
    last_synced := none
    updated_at := ext.now
    task_index := next_available_index (activeIndices s) }

/-- `add_task` (mutations.rs lines 95-148). -/
def add_task (ext : Ext) (s : DbState) (input : TaskInput) :
    DbState × MutationResult :=
  let row := newTaskRow ext s input
  let s' : DbState := { s with tasks := s.tasks ++ [row] }
  (s', { success := true
         task := get_task_by_uid s' ext.freshUid
         tasks := none
         error := none
         index := some row.task_index })

/-! ## Modify (`modify_tasks` / `modify_single_task`, mutations.rs 150-286) -/

/-- JSON-object assignment `x_props["X-PROJECT"] = v` on the assoc-list
model: sets the key, replacing an existing binding. -/
def setProp (props : List (String × String)) (k v : String) :
    List (String × String) :=
  (k, v) :: props.filter (fun p => p.1 ≠ k)

/-- The tag part of `modify_single_task` (mutations.rs lines 240-249):
each added tag is pushed only if not already present, then the removals
are filtered out. -/
def apply_tag_changes (cats : List String)
    (add_tags remove_tags : Option (List String)) : List String :=
  let cats1 :=
    match add_tags with
    | some adds =>
      adds.foldl (fun acc tag => if acc.contains tag then acc else acc ++ [tag]) cats
    | none => cats
  match remove_tags with
  | some rems => cats1.filter (fun t => ¬ rems.contains t)
  | none => cats1

/-- `if pending_action == Some("create") { "create" } else { "update" }`
(mutations.rs lines 256-260 and 326). -/
def recompute_pending (pending_action : Option String) : String :=
  if pending_action = some "create" then "create" else "update"

/-- The `UPDATE tasks SET ... WHERE uid = ?` of `modify_single_task`
(mutations.rs lines 262-283), as a function on each row matching the
uid: the SET values are computed from the originally loaded `row` and
`changes`; the columns not listed in SET (`attachments`, `href`,
`last_synced`, `task_index`) keep the row's own values. -/
def modify_row_update (ext : Ext) (row : TaskRow) (changes : TaskChanges)
    (t : TaskRow) : TaskRow :=
  let summary := changes.summary.getD row.summary
  let status := changes.status.getD row.status
  let due := match changes.due with
    | some d => some d
    | none => row.due
  let wait := match changes.wait with
    | some w => some w
    | none => row.wait
  let priority := if changes.priority.isSome then changes.priority else row.priority
  let url := match changes.url with
    | some u => some u
    | none => row.url
  let x_props := match changes.project with
    | some project => setProp row.x_properties "X-PROJECT" project
    | none => row.x_properties
  let cats := apply_tag_changes row.categories changes.add_tags changes.remove_tags
  let due_utc := due.bind ext.parse
  let wait_utc := wait.bind ext.parse
  { t with
    summary := summary
    status := status
    due := due
    wait := wait
    due_utc := due_utc
    wait_utc := wait_utc
    priority := priority
    x_properties := x_props
    categories := cats
    url := url
    pending_action := some (recompute_pending row.pending_action)
    updated_at := ext.now }

/-- `modify_single_task` (mutations.rs lines 172-286): load the first
row with the given index (`query_row`; `None` on no rows), compute the
new field values, UPDATE every row with the loaded uid, and return the
task re-read by uid. -/
def modify_single_task (ext : Ext) (s : DbState) (index : Int)
    (changes : TaskChanges) : DbState × Option Task :=
  match s.tasks.find? (fun t => t.task_index == index) with
  | none => (s, none)
  | some row =>
    let s' : DbState :=
      { s with tasks := s.tasks.map (fun t =>
          if t.uid == row.uid then modify_row_update ext row changes t else t) }
    (s', get_task_by_uid s' row.uid)

/-- `modify_tasks` (mutations.rs lines 150-170). -/
def modify_tasks (ext : Ext) (s : DbState) (indices : List Int)
    (changes : TaskChanges) : DbState × MutationResult :=
  let step := fun (acc : DbState × List Task) (index : Int) =>
    match modify_single_task ext acc.1 index changes with
    | (s1, some task) => (s1, acc.2 ++ [task])
    | (s1, none) => (s1, acc.2)
  let r := indices.foldl step (s, [])
  (r.1, { success := true
          task := none
          tasks := some r.2
          error := none
          index := none })

/-- `set_status` (mutations.rs lines 356-362). -/
def set_status (ext : Ext) (s : DbState) (indices : List Int)
    (status : String) : DbState × MutationResult :=
  modify_tasks ext s indices { status := some status }

/-- `start_tasks` (mutations.rs lines 348-350). -/
def start_tasks (ext : Ext) (s : DbState) (indices : List Int) :
    DbState × MutationResult :=
  set_status ext s indices "IN-PROCESS"

/-- `stop_tasks` (mutations.rs lines 352-354). -/
def stop_tasks (ext : Ext) (s : DbState) (indices : List Int) :
    DbState × MutationResult :=
  set_status ext s indices "NEEDS-ACTION"

/-! ## Complete (`complete_tasks` / `complete_single_task`, mutations.rs 288-346) -/

/-- The row produced by the `INSERT INTO completed_tasks ... SELECT`
(mutations.rs lines 329-340) for one source row: status forced to
`'COMPLETED'`, `pending_action` and `updated_at`/`completed_at` from the
bound parameters, everything else copied. -/
def completedRowOf (t : TaskRow) (new_pending : String) (now : Int) :
    CompletedRow :=
  { uid := t.uid
    summary := t.summary
    status := "COMPLETED"
    due := t.due
    wait := t.wait
    due_utc := t.due_utc
    wait_utc := t.wait_utc
    priority := t.priority
    x_properties := t.x_properties
    categories := t.categories
    url := t.url
    attachments := t.attachments
    href := t.href
    pending_action := some new_pending
    last_synced := t.last_synced
    updated_at := now
    completed_at := now
    task_index := t.task_index }

/-- `complete_single_task` (mutations.rs lines 306-346): snapshot the
first row with the index, read its `pending_action`, copy every row with
that index into `completed_tasks` (forcing COMPLETED and fresh
timestamps), delete from `tasks`, and return the snapshot. -/
def complete_single_task (ext : Ext) (s : DbState) (index : Int) :
    DbState × Option Task :=
  match s.tasks.find? (fun t => t.task_index == index) with
  | none => (s, none)
  | some row =>
    let task := Task.from_row row
    let now := ext.now
    let new_pending := recompute_pending row.pending_action
    let copied := (s.tasks.filter (fun t => t.task_index == index)).map
      (fun t => completedRowOf t new_pending now)
    let s' : DbState :=
      { s with
        completed := s.completed ++ copied
        tasks := s.tasks.filter (fun t => ¬ t.task_index == index) }
    (s', some task)

/-- `complete_tasks` (mutations.rs lines 288-304). -/
def complete_tasks (ext : Ext) (s : DbState) (indices : List Int) :
    DbState × MutationResult :=
  let step := fun (acc : DbState × List Task) (index : Int) =>
    match complete_single_task ext acc.1 index with
    | (s1, some task) => (s1, acc.2 ++ [task])
    | (s1, none) => (s1, acc.2)
  let r := indices.foldl step (s, [])
  (r.1, { success := true
          task := none
          tasks := some r.2
          error := none
          index := none })

/-! ## Delete (`delete_tasks` / `delete_single_task`, mutations.rs 364-425) -/

/-- The row produced by the `INSERT INTO deleted_tasks ... SELECT`
(mutations.rs lines 409-420): a tombstone carrying `deleted_at`; note
`pending_action` and `updated_at` are not copied. -/
def deletedRowOf (t : TaskRow) (now : Int) : DeletedRow :=
  { uid := t.uid
    summary := t.summary
    status := t.status
    due := t.due
    wait := t.wait
    due_utc := t.due_utc
    wait_utc := t.wait_utc
    priority := t.priority
    x_properties := t.x_properties
    categories := t.categories
    url := t.url
    attachments := t.attachments
    href := t.href
    last_synced := t.last_synced
    deleted_at := now
    task_index := t.task_index }

/-- `delete_single_task` (mutations.rs lines 382-425): snapshot the
first row with the index; if its `pending_action` is `create`, hard
delete with no tombstone; else copy into `deleted_tasks` with a deletion
timestamp and delete from `tasks`.  Returns the snapshot either way. -/
def delete_single_task (ext : Ext) (s : DbState) (index : Int) :
    DbState × Option Task :=
  match s.tasks.find? (fun t => t.task_index == index) with
  | none => (s, none)
  | some row =>
    let task := Task.from_row row
    let now := ext.now
    if row.pending_action = some "create" then
      ({ s with tasks := s.tasks.filter (fun t => ¬ t.task_index == index) },
       some task)
    else
      let copied := (s.tasks.filter (fun t => t.task_index == index)).map
        (fun t => deletedRowOf t now)
      ({ s with
         deleted := s.deleted ++ copied
         tasks := s.tasks.filter (fun t => ¬ t.task_index == index) },
       some task)

/-- `delete_tasks` (mutations.rs lines 364-380). -/
def delete_tasks (ext : Ext) (s : DbState) (indices : List Int) :
    DbState × MutationResult :=
  let step := fun (acc : DbState × List Task) (index : Int) =>
    match delete_single_task ext acc.1 index with
    | (s1, some task) => (s1, acc.2 ++ [task])
    | (s1, none) => (s1, acc.2)
  let r := indices.foldl step (s, [])
  (r.1, { success := true
          task := none
          tasks := some r.2
          error := none
          index := none })

/-! ## Transaction log

The bodies of `mutations::log_transaction` and `mutations::pop_transaction`
are not under src/; only the caller `handle_json_command` (main.rs lines
177-197) is, which supplies the cap default of 100.  The log operations
themselves are modelled from the spec (§4.3). -/

/-- The suffix of the `cap` most recent entries of an ordered log. -/
def takeLast (cap : Nat) (l : List LogEntry) : List LogEntry :=
  l.drop (l.length - cap)

/-- Modelled from the spec: `push(entry, cap)` "appends one record to the
end of an ordered log, then trims the log to at most `cap` most-recent
entries by discarding the oldest" (§4.3; body of
`mutations::log_transaction` missing from src/). -/
def log_transaction (s : DbState) (diff_json : String) (operation : String)
    (max_entries : Nat) : DbState × MutationResult :=
  let log' := takeLast max_entries (s.log ++ [⟨operation, diff_json⟩])
  ({ s with log := log' },
   { success := true, task := none, tasks := none, error := none, index := none })

/-- The `log_transaction` command of `handle_json_command` (main.rs lines
177-191): an omitted `max_entries` defaults to 100. -/
def log_transaction_cmd (s : DbState) (diff_json : String)
    (operation : String) (max_entries : Option Nat) : DbState × MutationResult :=
  log_transaction s diff_json operation (max_entries.getD 100)

/-- Modelled from the spec: `pop()` "removes and returns the single
most-recently-pushed entry, or an explicit empty signal if the log has no
entries" (§4.3; body of `mutations::pop_transaction` missing from src/). -/
def pop_transaction (s : DbState) : DbState × Option LogEntry :=
  match s.log.getLast? with
  | none => (s, none)
  | some e => ({ s with log := s.log.dropLast }, some e)

/-! ## Reachability through the core operations (for the active-set
status invariant): one constructor per lifecycle command dispatched by
`handle_json_command` (main.rs lines 107-163). -/

inductive Op where
  | add (ext : Ext) (input : TaskInput)
  | modify (ext : Ext) (indices : List Int) (changes : TaskChanges)
  | start (ext : Ext) (indices : List Int)
  | stop (ext : Ext) (indices : List Int)
  | complete (ext : Ext) (indices : List Int)
  | delete (ext : Ext) (indices : List Int)

def applyOp (s : DbState) : Op → DbState
  | .add ext input => (add_task ext s input).1
  | .modify ext indices changes => (modify_tasks ext s indices changes).1
  | .start ext indices => (start_tasks ext s indices).1
  | .stop ext indices => (stop_tasks ext s indices).1
  | .complete ext indices => (complete_tasks ext s indices).1
  | .delete ext indices => (delete_tasks ext s indices).1

def runOps (ops : List Op) (s : DbState) : DbState :=
  ops.foldl applyOp s

/-- No row of the active `tasks` table carries status COMPLETED. -/
def noActiveCompleted (s : DbState) : Prop :=
  ∀ t ∈ s.tasks, t.status ≠ "COMPLETED"

/-- An operation whose explicitly supplied status (Create input status,
Modify change status) is not the string COMPLETED. -/
def goodOp : Op → Prop
  | .add _ input => input.status ≠ some "COMPLETED"
  | .modify _ _ changes => changes.status ≠ some "COMPLETED"
  | _ => True

/-! ## Allocator lemmas -/

/-- In a `≤`-sorted list every element is bounded by `getLastD`. -/
theorem sorted_le_getLastD {l : List Int} (hs : l.Sorted (· ≤ ·)) :
    ∀ x ∈ l, ∀ d : Int, x ≤ l.getLastD d := by
  induction l with
  | nil => intro x hx; cases hx
  | cons a t ih =>
    rw [List.sorted_cons] at hs
    intro x hx d
    rw [List.getLastD_cons]
    rcases List.mem_cons.mp hx with rfl | hx'
    · cases t with
      | nil => simp
      | cons b t2 =>
        have hb : x ≤ b := hs.1 _ (List.mem_cons_self _ _)
        have h2 : b ≤ (b :: t2).getLastD x :=
          ih hs.2 b (List.mem_cons_self _ _) x
        exact le_trans hb h2
    · exact ih hs.2 x hx' a

/-- If the hole scan fires on a `≤`-sorted list, the returned value is
not in the list, and is either the initial `expected` or a successor of
a list element. -/
theorem scanHole_not_mem {l : List Int} {e r : Int} (hs : l.Sorted (· ≤ ·))
    (h : scanHole e l = some r) : r ∉ l ∧ (r = e ∨ ∃ x ∈ l, r = x + 1) := by
  induction l generalizing e with
  | nil => simp [scanHole] at h
  | cons idx rest ih =>
    rw [List.sorted_cons] at hs
    obtain ⟨hall, hrest⟩ := hs
    by_cases hgt : idx > e
    · rw [scanHole, if_pos hgt, Option.some_inj] at h
      subst h
      refine ⟨?_, Or.inl rfl⟩
      intro hmem
      rcases List.mem_cons.mp hmem with h1 | h1
      · omega
      · have := hall _ h1; omega
    · rw [scanHole, if_neg hgt] at h
      obtain ⟨hnm, hor⟩ := ih hrest h
      constructor
      · intro hmem
        rcases List.mem_cons.mp hmem with h1 | h1
        · rcases hor with h2 | ⟨x, hx, h2⟩
          · omega
          · have := hall _ hx; omega
        · exact hnm h1
      · rcases hor with h2 | ⟨x, hx, h2⟩
        · exact Or.inr ⟨idx, List.mem_cons_self _ _, by omega⟩
        · exact Or.inr ⟨x, List.mem_cons_of_mem _ hx, h2⟩

/-- On a strictly ascending list whose elements are all `≥ e`, the scan
misses nothing: below a returned hole, and up to the last element when
no hole is found, every value `≥ e` occurs in the list. -/
theorem scanHole_covers {l : List Int} {e : Int} (hs : l.Sorted (· < ·))
    (hge : ∀ x ∈ l, e ≤ x) :
    (∀ r, scanHole e l = some r → ∀ m, e ≤ m → m < r → m ∈ l) ∧
    (scanHole e l = none → ∀ m, e ≤ m → m ≤ l.getLastD (e - 1) → m ∈ l) := by
  induction l generalizing e with
  | nil =>
    refine ⟨fun r hr => by simp [scanHole] at hr, fun _ m hm1 hm2 => ?_⟩
    simp only [List.getLastD_nil] at hm2
    omega
  | cons idx rest ih =>
    rw [List.sorted_cons] at hs
    obtain ⟨hall, hrest⟩ := hs
    have hide : e ≤ idx := hge _ (List.mem_cons_self _ _)
    by_cases hgt : idx > e
    · constructor
      · intro r hr m hm1 hm2
        rw [scanHole, if_pos hgt, Option.some_inj] at hr
        omega
      · intro hn
        rw [scanHole, if_pos hgt] at hn
        cases hn
    · have hie : idx = e := by omega
      have hge' : ∀ x ∈ rest, idx + 1 ≤ x := fun x hx => by
        have := hall x hx; omega
      obtain ⟨ihs, ihn⟩ := ih hrest hge'
      constructor
      · intro r hr m hm1 hm2
        rw [scanHole, if_neg hgt] at hr
        rcases eq_or_lt_of_le hm1 with h1 | h1
        · exact List.mem_cons.mpr (Or.inl (by omega))
        · exact List.mem_cons.mpr (Or.inr (ihs r hr m (by omega) hm2))
      · intro hn m hm1 hm2
        rw [scanHole, if_neg hgt] at hn
        rw [List.getLastD_cons] at hm2
        have hd : rest.getLastD idx = rest.getLastD (idx + 1 - 1) := by
          norm_num
        rcases eq_or_lt_of_le hm1 with h1 | h1
        · exact List.mem_cons.mpr (Or.inl (by omega))
        · refine List.mem_cons.mpr (Or.inr (ihn hn m (by omega) ?_))
          rw [← hd]
          exact hm2

/-- On the index multiset as read back by `ORDER BY` (any `≤`-sorted
list, duplicates and non-positive values included), the allocator's
result is never an element of the list. -/
theorem next_available_index_not_mem {l : List Int}
    (hs : l.Sorted (· ≤ ·)) : next_available_index l ∉ l := by
  rw [next_available_index]
  by_cases hemp : l.isEmpty
  · rw [if_pos hemp]
    rw [List.isEmpty_iff] at hemp
    subst hemp
    simp
  · rw [if_neg hemp]
    rcases hsc : scanHole 1 l with _ | r
    · show l.getLast! + 1 ∉ l
      cases l with
      | nil => simp at hemp
      | cons a t =>
        rw [List.getLast!_cons]
        intro hmem
        have := sorted_le_getLastD hs _ hmem a
        rw [List.getLastD_cons] at this
        omega
    · exact (scanHole_not_mem hs hsc).1

/-- The active-index list is `≤`-sorted (it is produced by
`ORDER BY task_index`, modelled as an insertion sort). -/
theorem activeIndices_sorted (s : DbState) :
    (activeIndices s).Sorted (· ≤ ·) :=
  List.sorted_insertionSort (· ≤ ·) _

/-- Membership in the active-index list is membership of some active
row's index. -/
theorem mem_activeIndices {s : DbState} {i : Int} :
    i ∈ activeIndices s ↔ i ∈ s.tasks.map (·.task_index) :=
  (List.perm_insertionSort (· ≤ ·) _).mem_iff

/-- A nonempty list's `getLastD` is one of its elements. -/
theorem getLastD_mem {α : Type} (l : List α) (d : α) (h : l ≠ []) :
    l.getLastD d ∈ l := by
  induction l generalizing d with
  | nil => exact absurd rfl h
  | cons a t ih =>
    rw [List.getLastD_cons]
    cases t with
    | nil => simp
    | cons b t2 => exact List.mem_cons_of_mem _ (ih a (by simp))

/-- `n` is the smallest positive integer missing from `l`. -/
def isLeastMissing (l : List Int) (n : Int) : Prop :=
  1 ≤ n ∧ n ∉ l ∧ ∀ m : Int, 1 ≤ m → m ∉ l → n ≤ m

/-- C1: on a set of active task indices (a strictly ascending list of
positive integers), `next_available_index` returns the smallest positive
integer not in the set — the first hole scanning up from 1, `N+1` on a
contiguous run `1..N`, and 1 on the empty set. -/
theorem C1_allocator_least_missing (l : List Int)
    (hs : l.Sorted (· < ·)) (hpos : ∀ x ∈ l, 1 ≤ x) :
    isLeastMissing l (next_available_index l) := by
  have hs' : l.Sorted (· ≤ ·) := hs.imp (fun h => le_of_lt h)
  have hnm := next_available_index_not_mem hs'
  refine ⟨?_, hnm, ?_⟩
  · rw [next_available_index]
    by_cases hemp : l.isEmpty
    · rw [if_pos hemp]
    · rw [if_neg hemp]
      rcases hsc : scanHole 1 l with _ | r
      · show 1 ≤ l.getLast! + 1
        cases l with
        | nil => simp at hemp
        | cons a t =>
          rw [List.getLast!_cons]
          have hmem : (a :: t).getLastD 0 ∈ a :: t := getLastD_mem _ _ (by simp)
          rw [List.getLastD_cons] at hmem
          have := hpos _ hmem
          omega
      · show 1 ≤ r
        rcases (scanHole_not_mem hs' hsc).2 with h1 | ⟨x, hx, h1⟩
        · omega
        · have := hpos _ hx; omega
  · intro m hm1 hmnot
    by_contra hlt
    push_neg at hlt
    rw [next_available_index] at hlt
    by_cases hemp : l.isEmpty
    · rw [if_pos hemp] at hlt; omega
    · rw [if_neg hemp] at hlt
      have hcov := scanHole_covers hs hpos
      rcases hsc : scanHole 1 l with _ | r
      · rw [hsc] at hlt
        change m < l.getLast! + 1 at hlt
        apply hmnot
        refine hcov.2 hsc m hm1 ?_
        cases l with
        | nil => simp at hemp
        | cons a t =>
          rw [List.getLast!_cons] at hlt
          rw [List.getLastD_cons]
          omega
      · rw [hsc] at hlt
        change m < r at hlt
        exact hmnot (hcov.1 r hsc m hm1 hlt)

theorem C1_allocator_least_missing_witness :
    next_available_index [1, 2, 4, 5] = 3 ∧ next_available_index [] = 1 ∧
    next_available_index [1, 2, 3] = 4 ∧
    isLeastMissing [1, 2, 4, 5] (next_available_index [1, 2, 4, 5]) :=
  ⟨by decide, by decide, by decide,
   C1_allocator_least_missing [1, 2, 4, 5] (by decide) (by decide)⟩

/-- A sample active row, used for concrete instantiations. -/
def row0 : TaskRow :=
  { uid := "a"
    summary := "t1"
    status := "NEEDS-ACTION"
    due := none
    wait := none
    due_utc := none
    wait_utc := none
    priority := none
    x_properties := []
    categories := []
    url := none
    attachments := []
    href := none
    pending_action := some "create"
    last_synced := none
    updated_at := 0
    task_index := 1 }

def st0 : DbState := ⟨[row0], [], [], []⟩

/-- C2: on any `≤`-sorted list of stored indices (duplicates and
non-positive values included, matching whatever the `ORDER BY` query
returns), the allocator's result is not an element of the list; hence
`add_task` assigns the new row an index different from every existing
active row's index. -/
theorem C2_allocator_fresh :
    (∀ l : List Int, l.Sorted (· ≤ ·) → next_available_index l ∉ l) ∧
    (∀ (ext : Ext) (s : DbState) (input : TaskInput),
      (add_task ext s input).2.index =
        some (next_available_index (activeIndices s)) ∧
      ∀ t ∈ s.tasks, next_available_index (activeIndices s) ≠ t.task_index) := by
  refine ⟨fun l hs => next_available_index_not_mem hs, fun ext s input => ⟨rfl, ?_⟩⟩
  intro t ht heq
  have hmem : t.task_index ∈ activeIndices s :=
    mem_activeIndices.mpr (List.mem_map.mpr ⟨t, ht, rfl⟩)
  rw [← heq] at hmem
  exact next_available_index_not_mem (activeIndices_sorted s) hmem

theorem C2_allocator_fresh_witness :
    (next_available_index [1, 1, 3] ∉ [1, 1, 3]) ∧
    ((add_task ext0 st0 { summary := "x" }).2.index =
       some (next_available_index (activeIndices st0)) ∧
     ∀ t ∈ st0.tasks, next_available_index (activeIndices st0) ≠ t.task_index) :=
  ⟨C2_allocator_fresh.1 [1, 1, 3] (by decide),
   C2_allocator_fresh.2 ext0 st0 { summary := "x" }⟩

/-! ## Modify machinery: projections of the row update, membership in
the updated table, fold invariants -/

theorem modify_row_update_uid (ext : Ext) (row : TaskRow)
    (changes : TaskChanges) (t : TaskRow) :
    (modify_row_update ext row changes t).uid = t.uid := rfl

theorem modify_row_update_task_index (ext : Ext) (row : TaskRow)
    (changes : TaskChanges) (t : TaskRow) :
    (modify_row_update ext row changes t).task_index = t.task_index := rfl

theorem modify_row_update_pending (ext : Ext) (row : TaskRow)
    (changes : TaskChanges) (t : TaskRow) :
    (modify_row_update ext row changes t).pending_action =
      some (recompute_pending row.pending_action) := rfl

theorem modify_row_update_status (ext : Ext) (row : TaskRow)
    (changes : TaskChanges) (t : TaskRow) :
    (modify_row_update ext row changes t).status =
      changes.status.getD row.status := rfl

theorem modify_single_task_none {ext : Ext} {s : DbState} {index : Int}
    {changes : TaskChanges}
    (hf : s.tasks.find? (fun x => x.task_index == index) = none) :
    modify_single_task ext s index changes = (s, none) := by
  rw [modify_single_task, hf]

theorem modify_single_task_some {ext : Ext} {s : DbState} {index : Int}
    {changes : TaskChanges} {row : TaskRow}
    (hf : s.tasks.find? (fun x => x.task_index == index) = some row) :
    modify_single_task ext s index changes =
      ({ s with tasks := s.tasks.map (fun t =>
          if t.uid == row.uid then modify_row_update ext row changes t else t) },
       get_task_by_uid
         { s with tasks := s.tasks.map (fun t =>
             if t.uid == row.uid then modify_row_update ext row changes t else t) }
         row.uid) := by
  rw [modify_single_task, hf]

/-- Every row of the table after `modify_single_task` is either an
untouched old row or the update of an old row sharing the found row's
uid. -/
theorem modify_single_task_mem {ext : Ext} {s : DbState} {index : Int}
    {changes : TaskChanges} {t' : TaskRow}
    (h : t' ∈ (modify_single_task ext s index changes).1.tasks) :
    t' ∈ s.tasks ∨
    ∃ row, s.tasks.find? (fun x => x.task_index == index) = some row ∧
      ∃ t ∈ s.tasks, t.uid = row.uid ∧ t' = modify_row_update ext row changes t := by
  rcases hf : s.tasks.find? (fun x => x.task_index == index) with _ | row
  · rw [modify_single_task, hf] at h
    exact Or.inl h
  · rw [modify_single_task, hf] at h
    simp only [List.mem_map] at h
    obtain ⟨t, ht, heq⟩ := h
    by_cases hu : (t.uid == row.uid) = true
    · rw [if_pos hu] at heq
      exact Or.inr ⟨row, hf, t, ht, by simpa using hu, heq.symm⟩
    · rw [if_neg hu] at heq
      exact Or.inl (heq ▸ ht)

/-- `modify_single_task` preserves the multiset of `task_index` values:
the UPDATE touches no `task_index` column and adds or removes no row. -/
theorem modify_single_task_index_map (ext : Ext) (s : DbState) (index : Int)
    (changes : TaskChanges) :
    (modify_single_task ext s index changes).1.tasks.map (·.task_index) =
      s.tasks.map (·.task_index) := by
  rcases hf : s.tasks.find? (fun x => x.task_index == index) with _ | row
  · rw [modify_single_task_none hf]
  · rw [modify_single_task_some hf]
    show List.map (fun x => x.task_index)
        (List.map (fun t => if (t.uid == row.uid) = true
            then modify_row_update ext row changes t else t) s.tasks) =
      List.map (fun x => x.task_index) s.tasks
    rw [List.map_map]
    apply List.map_congr_left
    intro t _
    by_cases hu : (t.uid == row.uid) = true
    · simp only [Function.comp_apply, if_pos hu, modify_row_update_task_index]
    · simp only [Function.comp_apply, if_neg hu]

theorem foldl_invariant {σ β : Type} (P : σ → Prop) (step : σ → β → σ)
    (hstep : ∀ a b, P a → P (step a b)) :
    ∀ (bs : List β) (a : σ), P a → P (bs.foldl step a) := by
  intro bs
  induction bs with
  | nil => exact fun _ h => h
  | cons b bs ih => exact fun a h => ih _ (hstep a b h)

theorem foldl_pair_fst_invariant {σ τ β : Type} (P : σ → Prop)
    (step : σ × τ → β → σ × τ)
    (hstep : ∀ (a : σ) (l : τ) (b : β), P a → P (step (a, l) b).1) :
    ∀ (bs : List β) (p : σ × τ), P p.1 → P (bs.foldl step p).1 := by
  intro bs
  induction bs with
  | nil => exact fun _ h => h
  | cons b bs ih => exact fun p h => ih _ (hstep p.1 p.2 b h)

/-- Lift a per-index invariant of `modify_single_task` to `modify_tasks`. -/
theorem modify_tasks_invariant (P : DbState → Prop) (ext : Ext)
    (changes : TaskChanges)
    (h1 : ∀ s index, P s → P (modify_single_task ext s index changes).1)
    (indices : List Int) (s : DbState) (hs : P s) :
    P (modify_tasks ext s indices changes).1 := by
  refine foldl_pair_fst_invariant P _ ?_ indices (s, []) hs
  intro a l b ha
  show P (match modify_single_task ext a b changes with
    | (s1, some task) => (s1, l ++ [task])
    | (s1, none) => (s1, l)).1
  rcases hm : modify_single_task ext a b changes with ⟨s1, t?⟩
  have : s1 = (modify_single_task ext a b changes).1 := by rw [hm]
  cases t? with
  | none => simpa [this] using h1 a b ha
  | some task => simpa [this] using h1 a b ha

/-! ## Pending-action preservation (C3) -/

/-- Rows sharing a uid agree on `pending_action` (holds whenever uids
are unique, as uuid creation guarantees). -/
def pendingAgree (s : DbState) : Prop :=
  ∀ t1 ∈ s.tasks, ∀ t2 ∈ s.tasks, t1.uid = t2.uid →
    t1.pending_action = t2.pending_action

/-- Every active row with the given uid is still marked `create`. -/
def uidAllCreate (u : String) (s : DbState) : Prop :=
  ∀ t ∈ s.tasks, t.uid = u → t.pending_action = some "create"

theorem modify_single_pendingAgree (ext : Ext) (s : DbState) (index : Int)
    (changes : TaskChanges) (hP : pendingAgree s) :
    pendingAgree (modify_single_task ext s index changes).1 := by
  rcases hf : s.tasks.find? (fun x => x.task_index == index) with _ | row
  · rw [modify_single_task_none hf]; exact hP
  · rw [modify_single_task_some hf]
    intro t1 h1 t2 h2 huid
    simp only [List.mem_map] at h1 h2
    obtain ⟨a, ha, rfl⟩ := h1
    obtain ⟨b, hb, rfl⟩ := h2
    have hau : (if a.uid == row.uid then modify_row_update ext row changes a else a).uid = a.uid := by
      by_cases h : (a.uid == row.uid) = true
      · rw [if_pos h, modify_row_update_uid]
      · rw [if_neg h]
    have hbu : (if b.uid == row.uid then modify_row_update ext row changes b else b).uid = b.uid := by
      by_cases h : (b.uid == row.uid) = true
      · rw [if_pos h, modify_row_update_uid]
      · rw [if_neg h]
    rw [hau, hbu] at huid
    by_cases hca : (a.uid == row.uid) = true
    · have hcb : (b.uid == row.uid) = true := by
        rw [beq_iff_eq] at hca ⊢; rw [← huid]; exact hca
      rw [if_pos hca, if_pos hcb, modify_row_update_pending,
        modify_row_update_pending]
    · have hcb : ¬ (b.uid == row.uid) = true := by
        rw [beq_iff_eq] at hca ⊢; rw [← huid]; exact hca
      rw [if_neg hca, if_neg hcb]
      exact hP a ha b hb huid

theorem modify_single_uidAllCreate (ext : Ext) (s : DbState) (index : Int)
    (changes : TaskChanges) (u : String) (hP : pendingAgree s)
    (hu : uidAllCreate u s) :
    uidAllCreate u (modify_single_task ext s index changes).1 := by
  rcases hf : s.tasks.find? (fun x => x.task_index == index) with _ | row
  · rw [modify_single_task_none hf]; exact hu
  · rw [modify_single_task_some hf]
    intro t' h' huid
    simp only [List.mem_map] at h'
    obtain ⟨a, ha, rfl⟩ := h'
    by_cases hca : (a.uid == row.uid) = true
    · rw [if_pos hca] at huid ⊢
      rw [modify_row_update_uid] at huid
      rw [modify_row_update_pending]
      have hrow_mem : row ∈ s.tasks := List.mem_of_find?_eq_some hf
      have haru : a.uid = row.uid := by rwa [beq_iff_eq] at hca
      have : row.pending_action = a.pending_action :=
        hP row hrow_mem a ha (by rw [haru])
      rw [this, hu a ha huid]
      rfl
    · rw [if_neg hca] at huid ⊢
      exact hu a ha huid

/-- A sequence of Modify batches (Modify and SetStatus/start/stop are
all `modify_tasks` calls), each with its own environment, index list and
change set. -/
def runModSeq (ms : List (Ext × List Int × TaskChanges)) (s : DbState) :
    DbState :=
  ms.foldl (fun st m => (modify_tasks m.1 st m.2.1 m.2.2).1) s

theorem runModSeq_create_invariant (u : String)
    (ms : List (Ext × List Int × TaskChanges)) (s : DbState)
    (h : pendingAgree s ∧ uidAllCreate u s) :
    pendingAgree (runModSeq ms s) ∧ uidAllCreate u (runModSeq ms s) := by
  refine foldl_invariant (fun st => pendingAgree st ∧ uidAllCreate u st)
    _ ?_ ms s h
  intro a m ha
  refine ⟨?_, ?_⟩
  · exact modify_tasks_invariant pendingAgree m.1 m.2.2
      (fun s i h => modify_single_pendingAgree m.1 s i m.2.2 h) m.2.1 a ha.1
  · have := modify_tasks_invariant
      (fun st => pendingAgree st ∧ uidAllCreate u st) m.1 m.2.2
      (fun s i h => ⟨modify_single_pendingAgree m.1 s i m.2.2 h.1,
        modify_single_uidAllCreate m.1 s i m.2.2 u h.1 h.2⟩) m.2.1 a ha
    exact this.2

theorem add_task_pendingAgree_create (ext : Ext) (s : DbState)
    (input : TaskInput) (hP : pendingAgree s)
    (hfresh : ∀ t ∈ s.tasks, t.uid ≠ ext.freshUid) :
    pendingAgree (add_task ext s input).1 ∧
    uidAllCreate ext.freshUid (add_task ext s input).1 := by
  have htasks : (add_task ext s input).1.tasks =
      s.tasks ++ [newTaskRow ext s input] := rfl
  constructor
  · intro t1 h1 t2 h2 huid
    rw [htasks, List.mem_append, List.mem_singleton] at h1 h2
    rcases h1 with h1 | rfl <;> rcases h2 with h2 | rfl
    · exact hP t1 h1 t2 h2 huid
    · exact absurd huid (hfresh t1 h1)
    · exact absurd huid.symm (hfresh t2 h2)
    · rfl
  · intro t ht huid
    rw [htasks, List.mem_append, List.mem_singleton] at ht
    rcases ht with ht | rfl
    · exact absurd huid (hfresh t ht)
    · rfl

/-- C3: (a) Modify writes `pending_action = create` when the matched
task already had `create` and `update` otherwise; (b) a task created by
Create (fresh uuid) and then modified by any sequence of Modify /
SetStatus batches without external sync still has
`pending_action = create`; (c) Complete recomputes the completed
record's `pending_action` by the same rule. -/
theorem C3_pending_action_rule :
    (∀ (ext : Ext) (s : DbState) (index : Int) (changes : TaskChanges)
       (row : TaskRow),
      s.tasks.find? (fun x => x.task_index == index) = some row →
      ∀ t ∈ (modify_single_task ext s index changes).1.tasks,
        t.uid = row.uid →
        t.pending_action =
          some (if row.pending_action = some "create" then "create" else "update")) ∧
    (∀ (ext : Ext) (s : DbState) (input : TaskInput)
       (ms : List (Ext × List Int × TaskChanges)),
      pendingAgree s →
      (∀ t ∈ s.tasks, t.uid ≠ ext.freshUid) →
      uidAllCreate ext.freshUid (runModSeq ms (add_task ext s input).1)) ∧
    (∀ (ext : Ext) (s : DbState) (index : Int) (row : TaskRow),
      s.tasks.find? (fun x => x.task_index == index) = some row →
      ∀ c ∈ (complete_single_task ext s index).1.completed.drop s.completed.length,
        c.pending_action =
          some (if row.pending_action = some "create" then "create" else "update")) := by
  refine ⟨?_, ?_, ?_⟩
  · intro ext s index changes row hf t ht huid
    rw [modify_single_task_some hf] at ht
    simp only [List.mem_map] at ht
    obtain ⟨a, ha, rfl⟩ := ht
    by_cases hca : (a.uid == row.uid) = true
    · rw [if_pos hca, modify_row_update_pending, recompute_pending]
    · rw [if_neg hca] at huid ⊢
      exact absurd (beq_iff_eq.mpr huid) hca
  · intro ext s input ms hP hfresh
    have h0 := add_task_pendingAgree_create ext s input hP hfresh
    exact (runModSeq_create_invariant ext.freshUid ms _ h0).2
  · intro ext s index row hf c hc
    rw [complete_single_task, hf] at hc
    have : (s.completed ++
        (s.tasks.filter (fun t => t.task_index == index)).map
          (fun t => completedRowOf t (recompute_pending row.pending_action) ext.now)).drop
          s.completed.length =
        (s.tasks.filter (fun t => t.task_index == index)).map
          (fun t => completedRowOf t (recompute_pending row.pending_action) ext.now) := by
      rw [List.drop_left]
    rw [this] at hc
    simp only [List.mem_map] at hc
    obtain ⟨a, _, rfl⟩ := hc
    rw [recompute_pending]
    rfl

theorem C3_pending_action_rule_witness :
    uidAllCreate ext0.freshUid
      (runModSeq [(ext0, [1], { summary := some "edited" })]
        (add_task ext0 DbState.empty { summary := "x" }).1) :=
  C3_pending_action_rule.2.1 ext0 DbState.empty { summary := "x" }
    [(ext0, [1], { summary := some "edited" })]
    (fun t ht => absurd ht (List.not_mem_nil t))
    (fun t ht => absurd ht (List.not_mem_nil t))

/-! ## Active-set status invariant (C9) -/

theorem complete_single_task_tasks_subset {ext : Ext} {s : DbState}
    {index : Int} {t : TaskRow}
    (h : t ∈ (complete_single_task ext s index).1.tasks) : t ∈ s.tasks := by
  rcases hf : s.tasks.find? (fun x => x.task_index == index) with _ | row
  · rw [complete_single_task, hf] at h
    exact h
  · rw [complete_single_task, hf] at h
    exact List.mem_of_mem_filter h

theorem delete_single_task_tasks_subset {ext : Ext} {s : DbState}
    {index : Int} {t : TaskRow}
    (h : t ∈ (delete_single_task ext s index).1.tasks) : t ∈ s.tasks := by
  rcases hf : s.tasks.find? (fun x => x.task_index == index) with _ | row
  · rw [delete_single_task, hf] at h
    exact h
  · rw [delete_single_task, hf] at h
    by_cases hp : row.pending_action = some "create"
    · simp only [if_pos hp] at h
      exact List.mem_of_mem_filter h
    · simp only [if_neg hp] at h
      exact List.mem_of_mem_filter h

/-- Lift a per-index invariant of `complete_single_task` to
`complete_tasks`. -/
theorem complete_tasks_invariant (P : DbState → Prop) (ext : Ext)
    (h1 : ∀ s index, P s → P (complete_single_task ext s index).1)
    (indices : List Int) (s : DbState) (hs : P s) :
    P (complete_tasks ext s indices).1 := by
  refine foldl_pair_fst_invariant P _ ?_ indices (s, []) hs
  intro a l b ha
  show P (match complete_single_task ext a b with
    | (s1, some task) => (s1, l ++ [task])
    | (s1, none) => (s1, l)).1
  rcases hm : complete_single_task ext a b with ⟨s1, t?⟩
  have : s1 = (complete_single_task ext a b).1 := by rw [hm]
  cases t? with
  | none => simpa [this] using h1 a b ha
  | some task => simpa [this] using h1 a b ha

/-- Lift a per-index invariant of `delete_single_task` to `delete_tasks`. -/
theorem delete_tasks_invariant (P : DbState → Prop) (ext : Ext)
    (h1 : ∀ s index, P s → P (delete_single_task ext s index).1)
    (indices : List Int) (s : DbState) (hs : P s) :
    P (delete_tasks ext s indices).1 := by
  refine foldl_pair_fst_invariant P _ ?_ indices (s, []) hs
  intro a l b ha
  show P (match delete_single_task ext a b with
    | (s1, some task) => (s1, l ++ [task])
    | (s1, none) => (s1, l)).1
  rcases hm : delete_single_task ext a b with ⟨s1, t?⟩
  have : s1 = (delete_single_task ext a b).1 := by rw [hm]
  cases t? with
  | none => simpa [this] using h1 a b ha
  | some task => simpa [this] using h1 a b ha

theorem modify_single_noActiveCompleted (ext : Ext) (s : DbState)
    (index : Int) (changes : TaskChanges)
    (hch : changes.status ≠ some "COMPLETED")
    (h : noActiveCompleted s) :
    noActiveCompleted (modify_single_task ext s index changes).1 := by
  intro t ht
  rcases modify_single_task_mem ht with h1 | ⟨row, hf, a, _, _, rfl⟩
  · exact h t h1
  · rw [modify_row_update_status]
    rcases hst : changes.status with _ | x
    · rw [Option.getD_none]
      exact h row (List.mem_of_find?_eq_some hf)
    · rw [Option.getD_some]
      intro heq
      exact hch (hst ▸ (heq ▸ rfl))

theorem applyOp_noActiveCompleted (s : DbState) (op : Op)
    (hop : goodOp op) (h : noActiveCompleted s) :
    noActiveCompleted (applyOp s op) := by
  cases op with
  | add ext input =>
    intro t ht
    have htasks : (add_task ext s input).1.tasks =
        s.tasks ++ [newTaskRow ext s input] := rfl
    rw [show applyOp s (Op.add ext input) = (add_task ext s input).1 from rfl,
      htasks, List.mem_append, List.mem_singleton] at ht
    rcases ht with ht | rfl
    · exact h t ht
    · show input.status.getD "NEEDS-ACTION" ≠ "COMPLETED"
      rcases hst : input.status with _ | x
      · rw [Option.getD_none]; decide
      · rw [Option.getD_some]
        intro heq
        exact hop (hst ▸ (heq ▸ rfl))
  | modify ext indices changes =>
    exact modify_tasks_invariant noActiveCompleted ext changes
      (fun s i hs => modify_single_noActiveCompleted ext s i changes hop hs)
      indices s h
  | start ext indices =>
    exact modify_tasks_invariant noActiveCompleted ext
      { status := some "IN-PROCESS" }
      (fun s i hs => modify_single_noActiveCompleted ext s i
        { status := some "IN-PROCESS" } (by decide) hs)
      indices s h
  | stop ext indices =>
    exact modify_tasks_invariant noActiveCompleted ext
      { status := some "NEEDS-ACTION" }
      (fun s i hs => modify_single_noActiveCompleted ext s i
        { status := some "NEEDS-ACTION" } (by decide) hs)
      indices s h
  | complete ext indices =>
    exact complete_tasks_invariant noActiveCompleted ext
      (fun s i hs t ht => hs t (complete_single_task_tasks_subset ht))
      indices s h
  | delete ext indices =>
    exact delete_tasks_invariant noActiveCompleted ext
      (fun s i hs t ht => hs t (delete_single_task_tasks_subset ht))
      indices s h

/-- C9 counterexample: the claim fails as stated.  `add_task` stores
`input.status` without validation, so the single Create command with
`status = "COMPLETED"` reaches a state whose active set holds a
COMPLETED record (cf. `db.rs`, whose listing queries deliberately filter
`status != 'COMPLETED'` out of the active table). -/
theorem C9_counterexample :
    ¬ noActiveCompleted
      (runOps [Op.add ext0 { summary := "x", status := some "COMPLETED" }]
        DbState.empty) := by
  intro h
  exact absurd (h (newTaskRow ext0 DbState.empty
      { summary := "x", status := some "COMPLETED" })
    (List.mem_singleton.mpr rfl)) (by decide)

/-- C9 (amended): in every state reachable through the core operations
in which no Create input or Modify change explicitly supplies the status
string COMPLETED (SetStatus via start/stop only supplies IN-PROCESS or
NEEDS-ACTION), no active record carries status COMPLETED; COMPLETED
records exist only in the completed set. -/
theorem C9_active_never_completed (s : DbState) (ops : List Op)
    (h0 : noActiveCompleted s) (hops : ∀ op ∈ ops, goodOp op) :
    noActiveCompleted (runOps ops s) := by
  induction ops generalizing s with
  | nil => exact h0
  | cons op ops ih =>
    exact ih (applyOp s op)
      (applyOp_noActiveCompleted s op (hops op (List.mem_cons_self _ _)) h0)
      (fun o ho => hops o (List.mem_cons_of_mem _ ho))

theorem C9_active_never_completed_witness :
    noActiveCompleted
      (runOps [Op.add ext0 { summary := "x" }, Op.start ext0 [1]]
        DbState.empty) :=
  C9_active_never_completed DbState.empty
    [Op.add ext0 { summary := "x" }, Op.start ext0 [1]]
    (fun t ht => absurd ht (List.not_mem_nil t))
    (fun op hop => by
      rcases List.mem_cons.mp hop with rfl | hop2
      · exact fun h => by simp at h
      · rcases List.mem_cons.mp hop2 with rfl | hop3
        · exact trivial
        · exact absurd hop3 (List.not_mem_nil op))

/-! ## Complete and Delete (C4, C5) -/

/-- A filter with a singleton result pins down `find?`. -/
theorem find?_of_filter_singleton {α : Type} {p : α → Bool} {l : List α}
    {r : α} (h : l.filter p = [r]) : l.find? p = some r := by
  induction l with
  | nil => simp at h
  | cons a t ih =>
    by_cases hp : p a
    · rw [List.filter_cons_of_pos hp] at h
      rw [List.find?_cons_of_pos _ hp]
      injection h with h1 _
      rw [h1]
    · rw [List.filter_cons_of_neg hp] at h
      rw [List.find?_cons_of_neg _ hp]
      exact ih h

theorem complete_single_task_some {ext : Ext} {s : DbState} {index : Int}
    {row : TaskRow}
    (hf : s.tasks.find? (fun x => x.task_index == index) = some row) :
    complete_single_task ext s index =
      ({ s with
         completed := s.completed ++
           (s.tasks.filter (fun t => t.task_index == index)).map
             (fun t => completedRowOf t (recompute_pending row.pending_action) ext.now)
         tasks := s.tasks.filter (fun t => ¬ t.task_index == index) },
       some (Task.from_row row)) := by
  rw [complete_single_task, hf]

/-- C4: when exactly one active row matches the index, Complete returns
the pre-transition snapshot (its `status` is the row's status before
completion), inserts into the completed set exactly one record with
status forced to COMPLETED and a fresh completion timestamp, and removes
the row from the active set. -/
theorem C4_complete_snapshot (ext : Ext) (s : DbState) (index : Int)
    (row : TaskRow)
    (h : s.tasks.filter (fun t => t.task_index == index) = [row]) :
    (complete_single_task ext s index).2 = some (Task.from_row row) ∧
    (Task.from_row row).status = row.status ∧
    (complete_single_task ext s index).1.completed = s.completed ++
      [completedRowOf row (recompute_pending row.pending_action) ext.now] ∧
    (completedRowOf row (recompute_pending row.pending_action) ext.now).status
      = "COMPLETED" ∧
    (completedRowOf row (recompute_pending row.pending_action) ext.now).completed_at
      = ext.now ∧
    (completedRowOf row (recompute_pending row.pending_action) ext.now).uid
      = row.uid ∧
    (complete_single_task ext s index).1.tasks =
      s.tasks.filter (fun t => ¬ t.task_index == index) ∧
    ∀ t ∈ (complete_single_task ext s index).1.tasks, ¬ t.task_index = index := by
  have hf := find?_of_filter_singleton h
  rw [complete_single_task_some hf]
  refine ⟨rfl, rfl, ?_, rfl, rfl, rfl, rfl, ?_⟩
  · show s.completed ++
      (s.tasks.filter (fun t => t.task_index == index)).map
        (fun t => completedRowOf t (recompute_pending row.pending_action) ext.now) = _
    rw [h]
    rfl
  · intro t ht
    have := (List.mem_filter.mp ht).2
    simpa using this

/-- A sample row that has been synced upstream. -/
def rowSync : TaskRow := { row0 with pending_action := some "update" }

def stSync : DbState := ⟨[rowSync], [], [], []⟩

/-- A sample in-process row. -/
def rowIP : TaskRow := { row0 with status := "IN-PROCESS" }

def stIP : DbState := ⟨[rowIP], [], [], []⟩

theorem C4_complete_snapshot_witness :
    (complete_single_task ext0 stIP 1).2 = some (Task.from_row rowIP) ∧
    (Task.from_row rowIP).status = rowIP.status ∧
    (complete_single_task ext0 stIP 1).1.completed = stIP.completed ++
      [completedRowOf rowIP (recompute_pending rowIP.pending_action) ext0.now] ∧
    (completedRowOf rowIP (recompute_pending rowIP.pending_action) ext0.now).status
      = "COMPLETED" ∧
    (completedRowOf rowIP (recompute_pending rowIP.pending_action) ext0.now).completed_at
      = ext0.now ∧
    (completedRowOf rowIP (recompute_pending rowIP.pending_action) ext0.now).uid
      = rowIP.uid ∧
    (complete_single_task ext0 stIP 1).1.tasks =
      stIP.tasks.filter (fun t => ¬ t.task_index == 1) ∧
    ∀ t ∈ (complete_single_task ext0 stIP 1).1.tasks, ¬ t.task_index = 1 :=
  C4_complete_snapshot ext0 stIP 1 rowIP (by decide)

theorem delete_single_task_create {ext : Ext} {s : DbState} {index : Int}
    {row : TaskRow}
    (hf : s.tasks.find? (fun x => x.task_index == index) = some row)
    (hp : row.pending_action = some "create") :
    delete_single_task ext s index =
      ({ s with tasks := s.tasks.filter (fun t => ¬ t.task_index == index) },
       some (Task.from_row row)) := by
  simp only [delete_single_task, hf, if_pos hp]

theorem delete_single_task_synced {ext : Ext} {s : DbState} {index : Int}
    {row : TaskRow}
    (hf : s.tasks.find? (fun x => x.task_index == index) = some row)
    (hp : ¬ row.pending_action = some "create") :
    delete_single_task ext s index =
      ({ s with
         deleted := s.deleted ++
           (s.tasks.filter (fun t => t.task_index == index)).map
             (fun t => deletedRowOf t ext.now)
         tasks := s.tasks.filter (fun t => ¬ t.task_index == index) },
       some (Task.from_row row)) := by
  simp only [delete_single_task, hf, if_neg hp]

/-- C5: when exactly one active row matches the index, Delete removes it
from the active set and returns the pre-deletion snapshot; if its
`pending_action` is `create` no tombstone is written, otherwise exactly
one tombstone carrying the deletion timestamp is appended to the deleted
set. -/
theorem C5_delete_tombstone (ext : Ext) (s : DbState) (index : Int)
    (row : TaskRow)
    (h : s.tasks.filter (fun t => t.task_index == index) = [row]) :
    (delete_single_task ext s index).2 = some (Task.from_row row) ∧
    (delete_single_task ext s index).1.tasks =
      s.tasks.filter (fun t => ¬ t.task_index == index) ∧
    (row.pending_action = some "create" →
      (delete_single_task ext s index).1.deleted = s.deleted) ∧
    (¬ row.pending_action = some "create" →
      (delete_single_task ext s index).1.deleted =
        s.deleted ++ [deletedRowOf row ext.now] ∧
      (deletedRowOf row ext.now).deleted_at = ext.now ∧
      (deletedRowOf row ext.now).uid = row.uid) := by
  have hf := find?_of_filter_singleton h
  by_cases hp : row.pending_action = some "create"
  · rw [delete_single_task_create hf hp]
    exact ⟨rfl, rfl, fun _ => rfl, fun hne => absurd hp hne⟩
  · rw [delete_single_task_synced hf hp]
    refine ⟨rfl, rfl, fun hc => absurd hc hp, fun _ => ⟨?_, rfl, rfl⟩⟩
    show s.deleted ++
      (s.tasks.filter (fun t => t.task_index == index)).map
        (fun t => deletedRowOf t ext.now) = _
    rw [h]
    rfl

theorem C5_delete_tombstone_witness :
    ((delete_single_task ext0 st0 1).2 = some (Task.from_row row0) ∧
     (delete_single_task ext0 st0 1).1.tasks =
       st0.tasks.filter (fun t => ¬ t.task_index == 1) ∧
     (row0.pending_action = some "create" →
       (delete_single_task ext0 st0 1).1.deleted = st0.deleted) ∧
     (¬ row0.pending_action = some "create" →
       (delete_single_task ext0 st0 1).1.deleted =
         st0.deleted ++ [deletedRowOf row0 ext0.now] ∧
       (deletedRowOf row0 ext0.now).deleted_at = ext0.now ∧
       (deletedRowOf row0 ext0.now).uid = row0.uid)) ∧
    ((delete_single_task ext0 stSync 1).2 = some (Task.from_row rowSync) ∧
     (delete_single_task ext0 stSync 1).1.tasks =
       stSync.tasks.filter (fun t => ¬ t.task_index == 1) ∧
     (rowSync.pending_action = some "create" →
       (delete_single_task ext0 stSync 1).1.deleted = stSync.deleted) ∧
     (¬ rowSync.pending_action = some "create" →
       (delete_single_task ext0 stSync 1).1.deleted =
         stSync.deleted ++ [deletedRowOf rowSync ext0.now] ∧
       (deletedRowOf rowSync ext0.now).deleted_at = ext0.now ∧
       (deletedRowOf rowSync ext0.now).uid = rowSync.uid)) :=
  ⟨C5_delete_tombstone ext0 st0 1 row0 (by decide),
   C5_delete_tombstone ext0 stSync 1 rowSync (by decide)⟩

/-! ## Tag changes (C6) -/

/-- The push-if-absent fold of the add-tags loop keeps the tag list
duplicate-free. -/
theorem addTags_nodup (adds : List String) :
    ∀ acc : List String, acc.Nodup →
      (adds.foldl
        (fun acc tag => if acc.contains tag then acc else acc ++ [tag])
        acc).Nodup := by
  induction adds with
  | nil => exact fun _ h => h
  | cons a adds ih =>
    intro acc h
    show (adds.foldl _
      (if acc.contains a then acc else acc ++ [a])).Nodup
    by_cases hc : acc.contains a = true
    · rw [if_pos hc]
      exact ih acc h
    · rw [if_neg hc]
      refine ih _ ?_
      rw [List.nodup_append]
      refine ⟨h, List.nodup_singleton a, ?_⟩
      intro x hx hxa
      rw [List.mem_singleton] at hxa
      subst hxa
      exact hc (List.elem_iff.mpr hx)

/-- C6: Modify applies the additive tag set before the subtractive one,
so a tag in the subtractive set (in particular one listed in both sets,
or added and removed in the same change set) is absent afterwards; a tag
already present is not pushed again, and the tag list stays
duplicate-free. -/
theorem C6_tag_changes :
    (∀ (cats adds rems : List String) (tag : String),
      tag ∈ adds → tag ∈ rems →
      tag ∉ apply_tag_changes cats (some adds) (some rems)) ∧
    (∀ (cats : List String) (a r : Option (List String)),
      cats.Nodup → (apply_tag_changes cats a r).Nodup) ∧
    (∀ (cats : List String) (tag : String),
      tag ∈ cats → apply_tag_changes cats (some [tag]) none = cats) ∧
    (∀ (cats : List String) (tag : String),
      tag ∉ apply_tag_changes cats (some [tag]) (some [tag])) := by
  have habsent : ∀ (cats adds rems : List String) (tag : String),
      tag ∈ rems → tag ∉ apply_tag_changes cats (some adds) (some rems) := by
    intro cats adds rems tag hrem hmem
    have hmem2 : tag ∈ (adds.foldl
        (fun acc tag => if acc.contains tag then acc else acc ++ [tag])
        cats).filter (fun t => ¬ rems.contains t) := hmem
    have := (List.mem_filter.mp hmem2).2
    simp only [decide_eq_true_eq] at this
    exact this (List.elem_iff.mpr hrem)
  refine ⟨fun cats adds rems tag _ hr => habsent cats adds rems tag hr,
    ?_, ?_, fun cats tag => habsent cats [tag] [tag] tag (List.mem_singleton.mpr rfl)⟩
  · intro cats a r hnd
    cases a with
    | none =>
      cases r with
      | none => exact hnd
      | some rems => exact List.Nodup.filter _ hnd
    | some adds =>
      cases r with
      | none => exact addTags_nodup adds cats hnd
      | some rems => exact List.Nodup.filter _ (addTags_nodup adds cats hnd)
  · intro cats tag hmem
    show (if cats.contains tag then cats else cats ++ [tag]) = cats
    rw [if_pos (List.elem_iff.mpr hmem)]

theorem C6_tag_changes_witness :
    ("b" ∉ apply_tag_changes ["a"] (some ["b"]) (some ["b"])) ∧
    (apply_tag_changes ["a", "b"] (some ["b", "c"]) (some ["a"])).Nodup ∧
    apply_tag_changes ["a"] (some ["a"]) none = ["a"] ∧
    ("x" ∉ apply_tag_changes ["a"] (some ["x"]) (some ["x"])) :=
  ⟨C6_tag_changes.1 ["a"] ["b"] ["b"] "b" (by decide) (by decide),
   C6_tag_changes.2.1 ["a", "b"] (some ["b", "c"]) (some ["a"]) (by decide),
   C6_tag_changes.2.2.1 ["a"] "a" (by decide),
   C6_tag_changes.2.2.2 ["a"] "x"⟩

/-! ## Modify frame conditions (C10) -/

/-- `modify_single_task` preserves the multiset of (uid, task_index)
pairs: the UPDATE never touches uid or index. -/
theorem modify_single_task_id_map (ext : Ext) (s : DbState) (index : Int)
    (changes : TaskChanges) :
    (modify_single_task ext s index changes).1.tasks.map
        (fun t => (t.uid, t.task_index)) =
      s.tasks.map (fun t => (t.uid, t.task_index)) := by
  rcases hf : s.tasks.find? (fun x => x.task_index == index) with _ | row
  · rw [modify_single_task_none hf]
  · rw [modify_single_task_some hf]
    show List.map (fun t => (t.uid, t.task_index))
        (List.map (fun t => if (t.uid == row.uid) = true
            then modify_row_update ext row changes t else t) s.tasks) =
      List.map (fun t => (t.uid, t.task_index)) s.tasks
    rw [List.map_map]
    apply List.map_congr_left
    intro t _
    by_cases hu : (t.uid == row.uid) = true
    · simp only [Function.comp_apply, if_pos hu, modify_row_update_uid,
        modify_row_update_task_index]
    · simp only [Function.comp_apply, if_neg hu]

/-- C10: Modify overwrites only the fields present in the change set —
every absent field keeps its stored value, uid and index are never
modified (neither on the updated row nor anywhere in the table), and no
expressible change set can clear an already-set optional field (due,
wait, priority, url, project can only be overwritten, never reset to
absent). -/
theorem C10_modify_frame (ext : Ext) (row : TaskRow) (changes : TaskChanges) :
    (changes.summary = none →
      (modify_row_update ext row changes row).summary = row.summary) ∧
    (changes.status = none →
      (modify_row_update ext row changes row).status = row.status) ∧
    (changes.due = none →
      (modify_row_update ext row changes row).due = row.due) ∧
    (changes.wait = none →
      (modify_row_update ext row changes row).wait = row.wait) ∧
    (changes.priority = none →
      (modify_row_update ext row changes row).priority = row.priority) ∧
    (changes.project = none →
      (modify_row_update ext row changes row).x_properties = row.x_properties) ∧
    (changes.add_tags = none → changes.remove_tags = none →
      (modify_row_update ext row changes row).categories = row.categories) ∧
    (changes.url = none →
      (modify_row_update ext row changes row).url = row.url) ∧
    (∀ t : TaskRow, (modify_row_update ext row changes t).uid = t.uid ∧
      (modify_row_update ext row changes t).task_index = t.task_index) ∧
    (∀ (s : DbState) (index : Int),
      (modify_single_task ext s index changes).1.tasks.map
          (fun t => (t.uid, t.task_index)) =
        s.tasks.map (fun t => (t.uid, t.task_index))) ∧
    (row.due.isSome → (modify_row_update ext row changes row).due.isSome) ∧
    (row.wait.isSome → (modify_row_update ext row changes row).wait.isSome) ∧
    (row.priority.isSome →
      (modify_row_update ext row changes row).priority.isSome) ∧
    (row.url.isSome → (modify_row_update ext row changes row).url.isSome) ∧
    ((row.x_properties.lookup "X-PROJECT").isSome →
      ((modify_row_update ext row changes row).x_properties.lookup
        "X-PROJECT").isSome) := by
  refine ⟨?_, ?_, ?_, ?_, ?_, ?_, ?_, ?_,
    fun t => ⟨modify_row_update_uid ext row changes t,
      modify_row_update_task_index ext row changes t⟩,
    fun s index => modify_single_task_id_map ext s index changes,
    ?_, ?_, ?_, ?_, ?_⟩
  · intro h
    show changes.summary.getD row.summary = row.summary
    rw [h, Option.getD_none]
  · intro h
    show changes.status.getD row.status = row.status
    rw [h, Option.getD_none]
  · intro h
    show (match changes.due with
      | some d => some d
      | none => row.due) = row.due
    rw [h]
  · intro h
    show (match changes.wait with
      | some w => some w
      | none => row.wait) = row.wait
    rw [h]
  · intro h
    show (if changes.priority.isSome then changes.priority else row.priority) =
      row.priority
    rw [h]
    rfl
  · intro h
    show (match changes.project with
      | some project => setProp row.x_properties "X-PROJECT" project
      | none => row.x_properties) = row.x_properties
    rw [h]
  · intro h1 h2
    show apply_tag_changes row.categories changes.add_tags changes.remove_tags =
      row.categories
    rw [h1, h2]
    rfl
  · intro h
    show (match changes.url with
      | some u => some u
      | none => row.url) = row.url
    rw [h]
  · intro h
    show (match changes.due with
      | some d => some d
      | none => row.due).isSome
    rcases changes.due with _ | d
    · exact h
    · rfl
  · intro h
    show (match changes.wait with
      | some w => some w
      | none => row.wait).isSome
    rcases changes.wait with _ | w
    · exact h
    · rfl
  · intro h
    show (if changes.priority.isSome then changes.priority else row.priority).isSome
    rcases changes.priority with _ | p
    · exact h
    · rfl
  · intro h
    show (match changes.url with
      | some u => some u
      | none => row.url).isSome
    rcases changes.url with _ | u
    · exact h
    · rfl
  · intro h
    show ((match changes.project with
      | some project => setProp row.x_properties "X-PROJECT" project
      | none => row.x_properties).lookup "X-PROJECT").isSome
    rcases changes.project with _ | p
    · exact h
    · show ((setProp row.x_properties "X-PROJECT" p).lookup "X-PROJECT").isSome
      rw [setProp, List.lookup_cons_self]
      rfl

/-- A fully populated sample row. -/
def rowFull : TaskRow :=
  { row0 with
    due := some "2024-01-02"
    wait := some "2024-01-01"
    priority := some 2
    url := some "http://example.com"
    x_properties := [("X-PROJECT", "X")] }

theorem C10_modify_frame_witness :
    (modify_row_update ext0 rowFull {} rowFull).summary = rowFull.summary ∧
    (modify_row_update ext0 rowFull {} rowFull).due = rowFull.due ∧
    (modify_row_update ext0 rowFull {} rowFull).uid = rowFull.uid ∧
    (modify_row_update ext0 rowFull {} rowFull).due.isSome ∧
    ((modify_row_update ext0 rowFull {} rowFull).x_properties.lookup
      "X-PROJECT").isSome := by
  obtain ⟨h1, _, h3, _, _, _, _, _, h9, _, h11, _, _, _, h15⟩ :=
    C10_modify_frame ext0 rowFull {}
  exact ⟨h1 rfl, h3 rfl, (h9 rowFull).1, h11 (by decide), h15 (by decide)⟩

/-! ## Batch skip of unmatched indices (C7) -/

theorem complete_single_task_none {ext : Ext} {s : DbState} {index : Int}
    (hf : s.tasks.find? (fun x => x.task_index == index) = none) :
    complete_single_task ext s index = (s, none) := by
  rw [complete_single_task, hf]

theorem delete_single_task_none {ext : Ext} {s : DbState} {index : Int}
    (hf : s.tasks.find? (fun x => x.task_index == index) = none) :
    delete_single_task ext s index = (s, none) := by
  rw [delete_single_task, hf]

theorem any_index_le {l1 l2 : List TaskRow}
    (h : l1.map (·.task_index) = l2.map (·.task_index)) (j : Int)
    (hx : l1.any (fun t => t.task_index == j) = true) :
    l2.any (fun t => t.task_index == j) = true := by
  rw [List.any_eq_true] at hx ⊢
  obtain ⟨t, ht, hp⟩ := hx
  have hmem : t.task_index ∈ l2.map (fun x => x.task_index) := by
    rw [← h]
    exact List.mem_map_of_mem _ ht
  obtain ⟨u, hu, hui⟩ := List.mem_map.mp hmem
  exact ⟨u, hu, by rw [show u.task_index = t.task_index from hui]; exact hp⟩

theorem any_index_of_map_eq {l1 l2 : List TaskRow}
    (h : l1.map (·.task_index) = l2.map (·.task_index)) (j : Int) :
    l1.any (fun t => t.task_index == j) = l2.any (fun t => t.task_index == j) := by
  rw [Bool.eq_iff_iff]
  exact ⟨any_index_le h j, any_index_le h.symm j⟩

theorem get_task_by_uid_isSome_of_mem {s : DbState} {u : String}
    (h : ∃ t ∈ s.tasks, t.uid = u) : (get_task_by_uid s u).isSome := by
  obtain ⟨t, ht, hu⟩ := h
  rw [get_task_by_uid]
  rcases hfind : s.tasks.find? (fun t => t.uid == u) with _ | x
  · rw [List.find?_eq_none] at hfind
    exact absurd (beq_iff_eq.mpr hu) (hfind t ht)
  · rw [hfind]
    rfl

theorem modify_single_task_snd_isSome {ext : Ext} {s : DbState} {index : Int}
    {changes : TaskChanges} {row : TaskRow}
    (hf : s.tasks.find? (fun x => x.task_index == index) = some row) :
    ((modify_single_task ext s index changes).2).isSome := by
  rw [modify_single_task_some hf]
  apply get_task_by_uid_isSome_of_mem
  refine ⟨(if row.uid == row.uid then modify_row_update ext row changes row else row), ?_, ?_⟩
  · exact List.mem_map.mpr ⟨row, List.mem_of_find?_eq_some hf, rfl⟩
  · rw [if_pos (beq_self_eq_true row.uid), modify_row_update_uid]

theorem any_index_filter {l : List TaskRow} {i j : Int} (hne : j ≠ i) :
    (l.filter (fun t => ¬ t.task_index == i)).any (fun t => t.task_index == j) =
      l.any (fun t => t.task_index == j) := by
  rw [Bool.eq_iff_iff, List.any_eq_true, List.any_eq_true]
  constructor
  · rintro ⟨t, ht, hp⟩
    exact ⟨t, List.mem_of_mem_filter ht, hp⟩
  · rintro ⟨t, ht, hp⟩
    refine ⟨t, List.mem_filter.mpr ⟨ht, ?_⟩, hp⟩
    have hj : t.task_index = j := by rwa [beq_iff_eq] at hp
    simp [hj, hne]

theorem modify_tasks_fold_length (ext : Ext) (changes : TaskChanges) :
    ∀ (indices : List Int) (s : DbState) (acc : List Task),
      (indices.foldl (fun (acc : DbState × List Task) (index : Int) =>
          match modify_single_task ext acc.1 index changes with
          | (s1, some task) => (s1, acc.2 ++ [task])
          | (s1, none) => (s1, acc.2)) (s, acc)).2.length =
        acc.length + (indices.filter
          (fun i => s.tasks.any (fun t => t.task_index == i))).length := by
  intro indices
  induction indices with
  | nil => intro s acc; simp
  | cons i rest ih =>
    intro s acc
    rw [List.foldl_cons]
    rcases hf : s.tasks.find? (fun x => x.task_index == i) with _ | row
    · have hstep : (match modify_single_task ext s i changes with
          | (s1, some task) => (s1, acc ++ [task])
          | (s1, none) => (s1, acc)) = (s, acc) := by
        rw [modify_single_task_none hf]
      rw [hstep, ih s acc]
      have hpred : ¬ (s.tasks.any (fun t => t.task_index == i)) = true := by
        rw [List.any_eq_true]
        rintro ⟨t, ht, hp⟩
        rw [List.find?_eq_none] at hf
        exact hf t ht hp
      rw [List.filter_cons, if_neg hpred]
    · have hsnd := @modify_single_task_snd_isSome ext s i changes row hf
      obtain ⟨task, htask⟩ := Option.isSome_iff_exists.mp hsnd
      have hm : modify_single_task ext s i changes =
          ((modify_single_task ext s i changes).1, some task) := by
        rw [← htask]
      have hstep : (match modify_single_task ext s i changes with
          | (s1, some task) => (s1, acc ++ [task])
          | (s1, none) => (s1, acc)) =
          ((modify_single_task ext s i changes).1, acc ++ [task]) := by
        rw [hm]
      rw [hstep, ih _ _]
      have hmap := modify_single_task_index_map ext s i changes
      rw [List.filter_congr (fun j _ => any_index_of_map_eq hmap j)]
      have hpredi : s.tasks.any (fun t => t.task_index == i) = true := by
        rw [List.any_eq_true]
        refine ⟨row, List.mem_of_find?_eq_some hf, ?_⟩
        have hrowp := List.find?_some hf
        exact hrowp
      rw [List.filter_cons, if_pos hpredi]
      simp only [List.length_append, List.length_singleton, List.length_cons,
        List.length_nil]
      omega

theorem complete_tasks_fold_length (ext : Ext) :
    ∀ (indices : List Int), indices.Nodup → ∀ (s : DbState) (acc : List Task),
      (indices.foldl (fun (acc : DbState × List Task) (index : Int) =>
          match complete_single_task ext acc.1 index with
          | (s1, some task) => (s1, acc.2 ++ [task])
          | (s1, none) => (s1, acc.2)) (s, acc)).2.length =
        acc.length + (indices.filter
          (fun i => s.tasks.any (fun t => t.task_index == i))).length := by
  intro indices
  induction indices with
  | nil => intro _ s acc; simp
  | cons i rest ih =>
    intro hnd s acc
    rw [List.nodup_cons] at hnd
    rw [List.foldl_cons]
    rcases hf : s.tasks.find? (fun x => x.task_index == i) with _ | row
    · have hstep : (match complete_single_task ext s i with
          | (s1, some task) => (s1, acc ++ [task])
          | (s1, none) => (s1, acc)) = (s, acc) := by
        rw [complete_single_task_none hf]
      rw [hstep, ih hnd.2 s acc]
      have hpred : ¬ (s.tasks.any (fun t => t.task_index == i)) = true := by
        rw [List.any_eq_true]
        rintro ⟨t, ht, hp⟩
        rw [List.find?_eq_none] at hf
        exact hf t ht hp
      rw [List.filter_cons, if_neg hpred]
    · have hstep : (match complete_single_task ext s i with
          | (s1, some task) => (s1, acc ++ [task])
          | (s1, none) => (s1, acc)) =
          ((complete_single_task ext s i).1, acc ++ [Task.from_row row]) := by
        rw [complete_single_task_some hf]
      rw [hstep, ih hnd.2 _ _]
      have htasks : (complete_single_task ext s i).1.tasks =
          s.tasks.filter (fun t => ¬ t.task_index == i) := by
        rw [complete_single_task_some hf]
      have hany : ∀ j ∈ rest,
          ((complete_single_task ext s i).1.tasks.any
            (fun t => t.task_index == j)) =
          s.tasks.any (fun t => t.task_index == j) := by
        intro j hj
        rw [htasks]
        exact any_index_filter (fun hji => hnd.1 (hji ▸ hj))
      rw [List.filter_congr hany]
      have hpredi : s.tasks.any (fun t => t.task_index == i) = true := by
        rw [List.any_eq_true]
        refine ⟨row, List.mem_of_find?_eq_some hf, ?_⟩
        have hrowp := List.find?_some hf
        exact hrowp
      rw [List.filter_cons, if_pos hpredi]
      simp only [List.length_append, List.length_singleton, List.length_cons,
        List.length_nil]
      omega

theorem delete_tasks_fold_length (ext : Ext) :
    ∀ (indices : List Int), indices.Nodup → ∀ (s : DbState) (acc : List Task),
      (indices.foldl (fun (acc : DbState × List Task) (index : Int) =>
          match delete_single_task ext acc.1 index with
          | (s1, some task) => (s1, acc.2 ++ [task])
          | (s1, none) => (s1, acc.2)) (s, acc)).2.length =
        acc.length + (indices.filter
          (fun i => s.tasks.any (fun t => t.task_index == i))).length := by
  intro indices
  induction indices with
  | nil => intro _ s acc; simp
  | cons i rest ih =>
    intro hnd s acc
    rw [List.nodup_cons] at hnd
    rw [List.foldl_cons]
    rcases hf : s.tasks.find? (fun x => x.task_index == i) with _ | row
    · have hstep : (match delete_single_task ext s i with
          | (s1, some task) => (s1, acc ++ [task])
          | (s1, none) => (s1, acc)) = (s, acc) := by
        rw [delete_single_task_none hf]
      rw [hstep, ih hnd.2 s acc]
      have hpred : ¬ (s.tasks.any (fun t => t.task_index == i)) = true := by
        rw [List.any_eq_true]
        rintro ⟨t, ht, hp⟩
        rw [List.find?_eq_none] at hf
        exact hf t ht hp
      rw [List.filter_cons, if_neg hpred]
    · have hsnd : (delete_single_task ext s i).2 = some (Task.from_row row) ∧
          (delete_single_task ext s i).1.tasks =
            s.tasks.filter (fun t => ¬ t.task_index == i) := by
        by_cases hp : row.pending_action = some "create"
        · rw [delete_single_task_create hf hp]
          exact ⟨rfl, rfl⟩
        · rw [delete_single_task_synced hf hp]
          exact ⟨rfl, rfl⟩
      have hstep : (match delete_single_task ext s i with
          | (s1, some task) => (s1, acc ++ [task])
          | (s1, none) => (s1, acc)) =
          ((delete_single_task ext s i).1, acc ++ [Task.from_row row]) := by
        have : delete_single_task ext s i =
            ((delete_single_task ext s i).1, some (Task.from_row row)) := by
          rw [← hsnd.1]
        rw [this]
      rw [hstep, ih hnd.2 _ _]
      have hany : ∀ j ∈ rest,
          ((delete_single_task ext s i).1.tasks.any
            (fun t => t.task_index == j)) =
          s.tasks.any (fun t => t.task_index == j) := by
        intro j hj
        rw [hsnd.2]
        exact any_index_filter (fun hji => hnd.1 (hji ▸ hj))
      rw [List.filter_congr hany]
      have hpredi : s.tasks.any (fun t => t.task_index == i) = true := by
        rw [List.any_eq_true]
        refine ⟨row, List.mem_of_find?_eq_some hf, ?_⟩
        have hrowp := List.find?_some hf
        exact hrowp
      rw [List.filter_cons, if_pos hpredi]
      simp only [List.length_append, List.length_singleton, List.length_cons,
        List.length_nil]
      omega

/-- C7: an unmatched index is not an error: the batch operations skip
it, the returned tasks list holds exactly one task per matched index,
and the result reports success with no error field.  Modify (hence
SetStatus/start/stop, which are Modify specialized to the status field)
matches whatever index currently exists; for Complete/Delete the request
is a set of indices. -/
theorem C7_not_found_skipped :
    (∀ (ext : Ext) (s : DbState) (indices : List Int) (changes : TaskChanges),
      (modify_tasks ext s indices changes).2.success = true ∧
      (modify_tasks ext s indices changes).2.error = none ∧
      ∃ ts, (modify_tasks ext s indices changes).2.tasks = some ts ∧
        ts.length = (indices.filter
          (fun i => s.tasks.any (fun t => t.task_index == i))).length) ∧
    (∀ (ext : Ext) (s : DbState) (indices : List Int),
      (start_tasks ext s indices).2.success = true ∧
      (start_tasks ext s indices).2.error = none ∧
      ∃ ts, (start_tasks ext s indices).2.tasks = some ts ∧
        ts.length = (indices.filter
          (fun i => s.tasks.any (fun t => t.task_index == i))).length) ∧
    (∀ (ext : Ext) (s : DbState) (indices : List Int),
      (stop_tasks ext s indices).2.success = true ∧
      (stop_tasks ext s indices).2.error = none ∧
      ∃ ts, (stop_tasks ext s indices).2.tasks = some ts ∧
        ts.length = (indices.filter
          (fun i => s.tasks.any (fun t => t.task_index == i))).length) ∧
    (∀ (ext : Ext) (s : DbState) (indices : List Int), indices.Nodup →
      (complete_tasks ext s indices).2.success = true ∧
      (complete_tasks ext s indices).2.error = none ∧
      ∃ ts, (complete_tasks ext s indices).2.tasks = some ts ∧
        ts.length = (indices.filter
          (fun i => s.tasks.any (fun t => t.task_index == i))).length) ∧
    (∀ (ext : Ext) (s : DbState) (indices : List Int), indices.Nodup →
      (delete_tasks ext s indices).2.success = true ∧
      (delete_tasks ext s indices).2.error = none ∧
      ∃ ts, (delete_tasks ext s indices).2.tasks = some ts ∧
        ts.length = (indices.filter
          (fun i => s.tasks.any (fun t => t.task_index == i))).length) := by
  have hmod : ∀ (ext : Ext) (s : DbState) (indices : List Int)
      (changes : TaskChanges),
      (modify_tasks ext s indices changes).2.success = true ∧
      (modify_tasks ext s indices changes).2.error = none ∧
      ∃ ts, (modify_tasks ext s indices changes).2.tasks = some ts ∧
        ts.length = (indices.filter
          (fun i => s.tasks.any (fun t => t.task_index == i))).length := by
    intro ext s indices changes
    refine ⟨rfl, rfl, _, rfl, ?_⟩
    have := modify_tasks_fold_length ext changes indices s []
    simpa using this
  refine ⟨hmod, fun ext s indices => hmod ext s indices _,
    fun ext s indices => hmod ext s indices _, ?_, ?_⟩
  · intro ext s indices hnd
    refine ⟨rfl, rfl, _, rfl, ?_⟩
    have := complete_tasks_fold_length ext indices hnd s []
    simpa using this
  · intro ext s indices hnd
    refine ⟨rfl, rfl, _, rfl, ?_⟩
    have := delete_tasks_fold_length ext indices hnd s []
    simpa using this

/-- A sample row at index 3. -/
def row3 : TaskRow := { row0 with task_index := 3 }

def st3 : DbState := ⟨[row3], [], [], []⟩

theorem C7_not_found_skipped_witness :
    ((modify_tasks ext0 st3 [3, 99] { summary := some "m" }).2.success = true ∧
     (modify_tasks ext0 st3 [3, 99] { summary := some "m" }).2.error = none ∧
     ∃ ts, (modify_tasks ext0 st3 [3, 99] { summary := some "m" }).2.tasks = some ts ∧
       ts.length = (([3, 99] : List Int).filter
         (fun i => st3.tasks.any (fun t => t.task_index == i))).length) ∧
    ((delete_tasks ext0 st3 [3, 99]).2.success = true ∧
     (delete_tasks ext0 st3 [3, 99]).2.error = none ∧
     ∃ ts, (delete_tasks ext0 st3 [3, 99]).2.tasks = some ts ∧
       ts.length = (([3, 99] : List Int).filter
         (fun i => st3.tasks.any (fun t => t.task_index == i))).length) :=
  ⟨C7_not_found_skipped.1 ext0 st3 [3, 99] { summary := some "m" },
   C7_not_found_skipped.2.2.2.2 ext0 st3 [3, 99] (by decide)⟩

/-! ## Transaction log (C8) -/

def mkEntries (n : Nat) : List LogEntry :=
  (List.range n).map (fun i => ⟨"op", toString i⟩)

def pushMany (entries : List LogEntry) (cap : Nat) (s : DbState) : DbState :=
  entries.foldl
    (fun st e => (log_transaction st e.diff_json e.operation cap).1) s

set_option maxRecDepth 4000 in
/-- C8: push appends one entry and trims to the `cap` most recent
(pushing 105 entries with cap 100 leaves exactly the 100 most recently
pushed, oldest dropped); an omitted cap defaults to 100; pop removes and
returns the single most recent entry, shrinking the log by one, and
signals empty on an empty log. -/
theorem C8_transaction_log :
    (pushMany (mkEntries 105) 100 DbState.empty).log = (mkEntries 105).drop 5 ∧
    (∀ (s : DbState) (d op : String) (cap : Nat),
      (log_transaction s d op cap).1.log.length ≤ cap ∧
      List.IsSuffix (log_transaction s d op cap).1.log (s.log ++ [⟨op, d⟩])) ∧
    (∀ (s : DbState) (d op : String),
      log_transaction_cmd s d op none = log_transaction s d op 100) ∧
    (∀ s : DbState, s.log = [] → pop_transaction s = (s, none)) ∧
    (∀ (s : DbState) (l : List LogEntry) (e : LogEntry), s.log = l ++ [e] →
      (pop_transaction s).2 = some e ∧ (pop_transaction s).1.log = l ∧
      (pop_transaction s).1.log.length + 1 = s.log.length) := by
  refine ⟨by decide, ?_, fun s d op => rfl, ?_, ?_⟩
  · intro s d op cap
    constructor
    · show ((s.log ++ [(⟨op, d⟩ : LogEntry)]).drop
          ((s.log ++ [(⟨op, d⟩ : LogEntry)]).length - cap)).length ≤ cap
      rw [List.length_drop]
      omega
    · exact List.drop_suffix _ _
  · intro s h
    rw [pop_transaction, h]
    rfl
  · intro s l e h
    rw [pop_transaction, h, List.getLast?_concat]
    refine ⟨rfl, ?_, ?_⟩
    · show (l ++ [e]).dropLast = l
      rw [List.dropLast_concat]
    · show (l ++ [e]).dropLast.length + 1 = (l ++ [e]).length
      rw [List.dropLast_concat, List.length_append]
      rfl

def stLog : DbState := ⟨[], [], [], [⟨"add", "d1"⟩, ⟨"mod", "d2"⟩]⟩

theorem C8_transaction_log_witness :
    ((log_transaction stLog "d3" "del" 2).1.log.length ≤ 2 ∧
     List.IsSuffix (log_transaction stLog "d3" "del" 2).1.log
       (stLog.log ++ [⟨"del", "d3"⟩])) ∧
    pop_transaction DbState.empty = (DbState.empty, none) ∧
    ((pop_transaction stLog).2 = some ⟨"mod", "d2"⟩ ∧
     (pop_transaction stLog).1.log = [⟨"add", "d1"⟩] ∧
     (pop_transaction stLog).1.log.length + 1 = stLog.log.length) :=
  ⟨C8_transaction_log.2.1 stLog "d3" "del" 2,
   C8_transaction_log.2.2.2.1 DbState.empty rfl,
   C8_transaction_log.2.2.2.2 stLog [⟨"add", "d1"⟩] ⟨"mod", "d2"⟩ rfl⟩

end Tdo
